import Mathlib

/-!
Verification of the VLCIPTV Recorder scheduling core (vlciptv_recorder.py).

The Python source is shallowly embedded: pure helpers become Lean functions,
datetimes become seconds-since-epoch integers (the source only ever performs
naive local-time arithmetic, so instants are plain integers and
`timedelta(days=1)` is `+86400`), Python `int` becomes `Int`, regular
expressions are replaced by equivalent hand-rolled matchers on `List Char`
(with `\d` and whitespace modelled at ASCII granularity, which covers every
string the program manipulates), and fallible operations return `Except`.
-/

namespace VLCIPTV

/-- Decidable equality for `Except`, used to evaluate embedded fallible
operations on concrete inputs. -/
instance {ε α : Type} [DecidableEq ε] [DecidableEq α] : DecidableEq (Except ε α)
  | .ok a, .ok b =>
      if h : a = b then .isTrue (by rw [h]) else .isFalse (by intro hc; cases hc; exact h rfl)
  | .error a, .error b =>
      if h : a = b then .isTrue (by rw [h]) else .isFalse (by intro hc; cases hc; exact h rfl)
  | .ok _, .error _ => .isFalse (by intro hc; cases hc)
  | .error _, .ok _ => .isFalse (by intro hc; cases hc)

/-- Characters treated as whitespace by `str.strip` (ASCII fragment). -/
def isSpaceChar (c : Char) : Bool :=
  c = ' ' || c = '\t' || c = '\n' || c = '\r' || c = '\x0b' || c = '\x0c'

/-- Python `str.strip()`: drop whitespace from both ends. -/
def stripChars (l : List Char) : List Char :=
  ((l.dropWhile isSpaceChar).reverse.dropWhile isSpaceChar).reverse

/-- Python `s.strip().lower()` as used on user-entered fields. -/
def stripLower (s : String) : List Char :=
  (stripChars s.toList).map Char.toLower

/-- Decimal value of a digit string, as read by Python `int`. -/
def natOfDigits (l : List Char) : Nat :=
  l.foldl (fun a c => a * 10 + (c.toNat - 48)) 0

/-- Matcher for `re.fullmatch(r"\d+:\d{2}:\d{2}", s)` (vlciptv_recorder.py:135).
The maximal digit span is equivalent to the greedy `\d+` because `:` is not a
digit. -/
def matchColon (l : List Char) : Option (Nat × Nat × Nat) :=
  match l.span (fun c => c.isDigit) with
  | ([], _) => none
  | (d1, ':' :: a :: b :: ':' :: c :: d :: []) =>
      if a.isDigit && b.isDigit && c.isDigit && d.isDigit then
        some (natOfDigits d1, natOfDigits [a, b], natOfDigits [c, d])
      else none
  | _ => none

/-- Match a nonempty digit run followed by the literal character `suf`,
returning the run's value and the rest (one arm of
`(?:(\d+)h)?(?:(\d+)m)?(?:(\d+)s)?`). -/
def takeNum (l : List Char) (suf : Char) : Option (Nat × List Char) :=
  match l.span (fun c => c.isDigit) with
  | ([], _) => none
  | (_, []) => none
  | (d, c :: rest) => if c = suf then some (natOfDigits d, rest) else none

/-- Optional group: on failure nothing is consumed (value, rest, matched?). -/
def optNum (l : List Char) (suf : Char) : Nat × List Char × Bool :=
  match takeNum l suf with
  | some (n, r) => (n, r, true)
  | none => (0, l, false)

/-- Matcher for `re.fullmatch(r"(?:(\d+)h)?(?:(\d+)m)?(?:(\d+)s)?", s)` with
Python's `any(m.groups())` requirement that at least one group matched
(vlciptv_recorder.py:137-140). -/
def matchComposite (l : List Char) : Option Nat :=
  let ph := optNum l 'h'
  let pm := optNum ph.2.1 'm'
  let ps := optNum pm.2.1 's'
  if ps.2.1 = [] && (ph.2.2 || pm.2.2 || ps.2.2) then
    some (ph.1 * 3600 + pm.1 * 60 + ps.1)
  else none

/-- Python `str.isdigit` (ASCII fragment): nonempty and all digits. -/
def isDigitStr (l : List Char) : Bool :=
  !l.isEmpty && l.all (fun c => c.isDigit)

/-- Embedding of `parse_duration` (vlciptv_recorder.py:133-142): strip and
lowercase, then try `H:MM:SS`, then the composite `NhNmNs` form, then a bare
integer of minutes; otherwise raise `ValueError`. -/
def parse_duration (s : String) : Except String Int :=
  let l := stripLower s
  match matchColon l with
  | some hms => .ok ((hms.1 * 3600 + hms.2.1 * 60 + hms.2.2 : Nat) : Int)
  | none =>
    match matchComposite l with
    | some n => .ok ((n : Nat) : Int)
    | none =>
      if isDigitStr l then .ok ((natOfDigits l : Int) * 60)
      else .error "Use 02:05:00, 125, or 2h5m"

/-- Inputs on which the `\d+:\d{2}:\d{2}` pattern succeeds: a nonempty digit
run, a colon, two digits, a colon, two digits. -/
def colonClass (l : List Char) : Prop :=
  ∃ l1 a b c d, (l1 ≠ [] ∧ ∀ x ∈ l1, Char.isDigit x = true) ∧
    (∀ x ∈ [a, b, c, d], Char.isDigit x = true) ∧
    l = l1 ++ ':' :: a :: b :: ':' :: c :: d :: []

/-- One optional group of the composite pattern: digits plus its suffix
letter when present, nothing when absent. -/
def optPart (b : Bool) (dl : List Char) (suf : Char) : List Char :=
  if b then dl ++ [suf] else []

/-- Inputs on which the composite `(?:(\d+)h)?(?:(\d+)m)?(?:(\d+)s)?` pattern
succeeds with at least one group. -/
def compositeClass (l : List Char) : Prop :=
  ∃ (bh bm bs : Bool) (dh dm ds : List Char),
    (bh = true ∨ bm = true ∨ bs = true) ∧
    (bh = true → dh ≠ [] ∧ ∀ c ∈ dh, c.isDigit = true) ∧
    (bm = true → dm ≠ [] ∧ ∀ c ∈ dm, c.isDigit = true) ∧
    (bs = true → ds ≠ [] ∧ ∀ c ∈ ds, c.isDigit = true) ∧
    l = optPart bh dh 'h' ++ optPart bm dm 'm' ++ optPart bs ds 's'

/-- Inputs on which Python `str.isdigit` succeeds. -/
def digitsClass (l : List Char) : Prop :=
  l ≠ [] ∧ ∀ c ∈ l, c.isDigit = true

/-- Duration resolution inside `App._schedule_task` (vlciptv_recorder.py:962-968):
an empty (after strip) duration field defaults to 2 h 5 min, otherwise the
field is run through `parse_duration`. -/
def duration_of_input (dur_var : String) : Except String Int :=
  if stripChars dur_var.toList = [] then .ok (2 * 3600 + 5 * 60)
  else parse_duration dur_var

/-- Result of `App._ensure_future_start` (vlciptv_recorder.py:911-923):
`keep` returns the instant untouched, `bumped` is the informational
one-day roll-forward, `pastError` is the fatal past-start report (the
method returns `None`). -/
inductive EnsureResult where
  | keep (t : Int)
  | bumped (t : Int)
  | pastError
deriving DecidableEq

/-- Embedding of `App._ensure_future_start`: instants are naive local epoch
seconds, so `+ dt.timedelta(days=1)` is `+86400`. -/
def ensure_future_start (now start_at : Int) (day_var : String) : EnsureResult :=
  let day_raw := stripLower day_var
  if now < start_at then .keep start_at
  else if day_raw = "".toList ∨ day_raw = "today".toList then .bumped (start_at + 86400)
  else .pastError

/-- Quality profile, from the `QUALITY_OPTS` table (vlciptv_recorder.py:39-43). -/
inductive Quality where
  | copy
  | trans (v_bitrate a_bitrate : String)
deriving DecidableEq

def qHigh : Quality := .copy
def qMedium : Quality := .trans "4500k" "128k"
def qLow : Quality := .trans "2500k" "96k"

/-- Fixed client identity string `UA` (vlciptv_recorder.py:37). -/
def UA : String := "VLC/3.0.20"

/-- Embedding of `build_ffmpeg_cmd` (vlciptv_recorder.py:286-303). It is a
pure function of its arguments; `str(int(duration_s))` is `toString` on
`Int`. -/
def build_ffmpeg_cmd (ffmpeg stream_url out_path : String) (duration_s : Int)
    (qopt : Quality) (crash_safe : Bool) : List String :=
  let base := [ffmpeg, "-hide_banner", "-loglevel", "info", "-stats",
               "-user_agent", UA,
               "-reconnect", "1", "-reconnect_streamed", "1", "-reconnect_at_eof", "1",
               "-i", stream_url, "-t", toString duration_s]
  match qopt with
  | .copy =>
      let mov := if crash_safe then "+faststart" ++ "+frag_keyframe+empty_moov+default_base_moof"
                 else "+faststart"
      base ++ ["-c", "copy", "-movflags", mov, out_path]
  | .trans vb ab =>
      let mov := if crash_safe then "+faststart+frag_keyframe+empty_moov+default_base_moof"
                 else "+faststart"
      base ++ ["-map", "0:v:0?", "-map", "0:a:0?",
               "-c:v", "libx264", "-preset", "veryfast", "-b:v", vb, "-maxrate", vb,
               "-bufsize", "2M",
               "-c:a", "aac", "-b:a", ab, "-movflags", mov, out_path]

/-- Buffer application of `App._schedule_task` (vlciptv_recorder.py:972-978):
an enabled start buffer moves the start back by `max 0 mins` minutes and adds
the same to the duration; an enabled end buffer only adds to the duration. -/
def apply_buffers (start_at dur_s : Int) (buf_start_on : Bool) (buf_start_min : Int)
    (buf_end_on : Bool) (buf_end_min : Int) : Int × Int :=
  let p1 := if buf_start_on then
      (start_at - max 0 buf_start_min * 60, dur_s + max 0 buf_start_min * 60)
    else (start_at, dur_s)
  if buf_end_on then (p1.1, p1.2 + max 0 buf_end_min * 60) else p1

/-- The fully resolved capture job produced by `App._schedule_task`. -/
structure Job where
  start_at : Int
  dur_s : Int
  out_path : String
  cmd : List String
deriving DecidableEq

/-- Embedding of the scheduling pipeline of `App._schedule_task`
(vlciptv_recorder.py:952-997).  The guard clauses for a ready ffmpeg path and
a selected channel are modelled as already satisfied (their data arrives as
parameters), and `start_parsed` is the instant `_parse_when` produced.  The
order of operations follows the source: duration parsing, then
`_ensure_future_start`, then buffer application, then `build_ffmpeg_cmd`. -/
def schedule_task (ffmpeg ch_url : String) (now start_parsed : Int)
    (day_var dur_var : String)
    (buf_start_on : Bool) (buf_start_min : Int) (buf_end_on : Bool) (buf_end_min : Int)
    (out_path : String) (qopt : Quality) (crash_safe : Bool) : Except String Job :=
  match duration_of_input dur_var with
  | .error e => .error ("Duration: " ++ e)
  | .ok dur0 =>
    match ensure_future_start now start_parsed day_var with
    | .pastError => .error "Start time is not in the future."
    | .keep t | .bumped t =>
        let p := apply_buffers t dur0 buf_start_on buf_start_min buf_end_on buf_end_min
        .ok { start_at := p.1, dur_s := p.2, out_path := out_path,
              cmd := build_ffmpeg_cmd ffmpeg ch_url out_path p.2 qopt crash_safe }

/-! ### Safe finalize (`finalize_recording`) -/

/-- Abstract filesystem: a map from paths to optional file contents. -/
abbrev FS := String → Option String

/-- Outcome of the `subprocess.run` remux call inside `finalize_recording`:
it either raises (e.g. `TimeoutExpired`) or completes normally; in both
cases it leaves the filesystem in some new state, since the spawned process
may have written (part of) the fixed sibling before stopping. -/
inductive RunOutcome where
  | raises (fs' : FS)
  | completes (fs' : FS)

/-- Filesystem state after the remux call, whichever way it ended. -/
def RunOutcome.fs : RunOutcome → FS
  | .raises f => f
  | .completes f => f

/-- Try-block of `finalize_recording` (vlciptv_recorder.py:309-315): run the
remux (`check=False`, so its exit code is ignored) and, if the fixed sibling
exists afterwards, replace the original with it via `os.replace`.  `.error`
carries the filesystem state at the point an exception escaped the block
(`replace_raises` models `os.replace` failing). -/
def finalize_try (p : String) (run : RunOutcome) (replace_raises : Bool) : Except FS FS :=
  let fixed := p ++ ".fixed.mp4"
  match run with
  | .raises fs' => .error fs'
  | .completes fs' =>
    match fs' fixed with
    | none => .ok fs'
    | some c =>
        if replace_raises then .error fs'
        else .ok (fun q => if q = p then some c else if q = fixed then none else fs' q)

/-- Embedding of `finalize_recording` (vlciptv_recorder.py:306-316): a missing
output file returns immediately; otherwise the try-block runs and any
exception is swallowed (`except Exception: pass`), leaving the filesystem as
it was at the exception point.  The function is total: no failure escapes to
the caller (`WaitRecordLive.stop_keep` additionally wraps the call in its own
swallow-all handler). -/
def finalize_recording (fs : FS) (p : String) (run : RunOutcome) (replace_raises : Bool) : FS :=
  match fs p with
  | none => fs
  | some _ =>
    match finalize_try p run replace_raises with
    | .error s => s
    | .ok s => s

/-! ### Series group key (`App._series_group_key`) -/

/-- The literal head of the series-task pattern. -/
def seriesTag : List Char := "IPTV_DVR_SERIES_".toList

/-- One suffix attempt for the anchored pattern `_\d{8}_\d{4,6}$`: with `r`
the reversed task name and `k` the tried length of the time block, check that
`r` starts with `k` digits, an underscore, eight digits and another
underscore, and return the (reversed) remainder — the capture group. -/
def tryTimeLen (r : List Char) (k : Nat) : Option (List Char) :=
  if (r.take k).length = k ∧ (r.take k).all (fun c => c.isDigit) then
    match r.drop k with
    | '_' :: r2 =>
      if (r2.take 8).length = 8 ∧ (r2.take 8).all (fun c => c.isDigit) then
        match r2.drop 8 with
        | '_' :: r4 => some r4
        | _ => none
      else none
    | _ => none
  else none

/-- Matcher for `^(IPTV_DVR_SERIES_.+?)_\d{8}_\d{4,6}$` on a character list
with no trailing newline.  Because the pattern is anchored at both ends the
decomposition is forced: `\d{4,6}` must be the entire trailing digit run, so
at most one of the three lengths succeeds and the lazy `.+?` has a unique
possible extent; `.` never matches a newline, hence the check on the capture
group. -/
def series_group_key_core (l : List Char) : Option String :=
  let r := l.reverse
  match (tryTimeLen r 4).orElse (fun _ => (tryTimeLen r 5).orElse (fun _ => tryTimeLen r 6)) with
  | none => none
  | some r4 =>
    let g1 := r4.reverse
    if seriesTag.isPrefixOf g1 ∧ seriesTag.length < g1.length
        ∧ (g1.drop seriesTag.length).all (fun c => c ≠ '\n') then
      some (String.mk g1)
    else none

/-- Embedding of `App._series_group_key` (vlciptv_recorder.py:1131-1135),
i.e. `re.match(r"^(IPTV_DVR_SERIES_.+?)_\d{8}_\d{4,6}$", name)`.  Python's
`$` also matches just before a single final newline, hence the `dropLast`
normalisation. -/
def series_group_key (name : String) : Option String :=
  let l0 := name.toList
  series_group_key_core (if l0.getLast? = some '\n' then l0.dropLast else l0)

/-! ### Scheduled-task list and the Series Info pane (`App.on_task_select`) -/

/-- A row of `tasks_index`: `(name, next_run, schedule, status)`
(vlciptv_recorder.py:391, 1030). -/
abbrev Task := String × String × String × String

/-- Lexicographic comparison of task tuples — the order Python `sorted` uses
on them. -/
def taskLe (a b : Task) : Bool :=
  if a.1 ≠ b.1 then decide (a.1 < b.1)
  else if a.2.1 ≠ b.2.1 then decide (a.2.1 < b.2.1)
  else if a.2.2.1 ≠ b.2.2.1 then decide (a.2.2.1 < b.2.2.1)
  else decide (a.2.2.2 ≤ b.2.2.2)

/-- Stable insertion into a sorted task list. -/
def insertTask (x : Task) : List Task → List Task
  | [] => [x]
  | y :: ys => if taskLe x y then x :: y :: ys else y :: insertTask x ys

/-- Stable sort of task tuples; agrees with Python's stable `sorted` under
the same total preorder. -/
def sortTasks : List Task → List Task
  | [] => []
  | x :: xs => insertTask x (sortTasks xs)

/-- Python `name.rsplit('_', 1)[-1]`: the part after the last underscore, or
the whole string when there is none. -/
def afterLastUnderscore (s : String) : String :=
  String.mk ((s.toList.reverse.takeWhile (fun c => c ≠ '_')).reverse)

/-- Errors surfaced by the embedded handlers. -/
inductive PyError where
  | attributeError (name : String)
deriving DecidableEq

/-- Value of the `SERIES_PREFIX` attribute on `App` objects: no assignment
`SERIES_PREFIX = ...` exists anywhere in the program (the class only defines
`SERIES_RE`), and `tkinter.Tk.__getattr__` delegation to the Tcl interpreter
object fails for it too, so reading it raises `AttributeError`. -/
def SERIES_PREFIX_attr : Option String := none

/-- Embedding of `App.on_task_select` (vlciptv_recorder.py:1087-1099).  The
handler clears the Series Info pane, requires exactly one selected name
carrying a series key and a nonempty match list, and then reads
`self.SERIES_PREFIX` — before inserting any line — so the display code below
the attribute read is unreachable.  Returns the final contents of the Series
Info pane (or the escaping exception) together with the `tasks_index` the
handler leaves behind. -/
def on_task_select (tasks_index : List Task) (names : List String) :
    Except PyError (List String) × List Task :=
  if names.length ≠ 1 then (.ok [], tasks_index)
  else
    match series_group_key (names.headD "") with
    | none => (.ok [], tasks_index)
    | some base =>
      let ms := tasks_index.filter (fun t => (base ++ "_").toList.isPrefixOf t.1.toList)
      if ms.isEmpty then (.ok [], tasks_index)
      else
        match SERIES_PREFIX_attr with
        | none => (.error (.attributeError "SERIES_PREFIX"), tasks_index)
        | some pre =>
          let header := "Series group: " ++ String.mk (base.toList.drop pre.length)
          let lines := (sortTasks ms).map (fun t =>
            afterLastUnderscore t.1 ++ "    | Next: " ++ t.2.1 ++ " | " ++ t.2.2.1 ++ " | " ++ t.2.2.2)
          (.ok (header :: String.mk (List.replicate 40 '-') :: lines), tasks_index)

/-! ### Attribute lookup on `App` and `series_record_async` -/

/-- Names bound in the class body of `App` — its methods and the `SERIES_RE`
class attribute (vlciptv_recorder.py:368-1135). -/
def appClassAttrs : List String :=
  ["__init__", "_finish_init", "show_splash", "on_app_close", "build_ui",
   "_bind_preview_updates", "_set_epg_controls_enabled", "_auto_filename",
   "_current_channel_name", "_preview_start_time", "update_output_preview",
   "bootstrap_ffmpeg", "_after_ffmpeg", "load_playlist", "_after_playlist",
   "load_epg", "_after_epg", "pick_folder", "fill_channels",
   "clear_channel_search", "search_channels", "get_selected_channel",
   "clear_epg_search", "search_show", "on_show_double_click", "use_show_pick",
   "_parse_when", "_ensure_future_start", "_write_task_wrapper", "arm_record",
   "schedule_task_async", "_schedule_done", "_schedule_task",
   "series_record_async", "_series_done", "refresh_tasks_async",
   "_query_tasks", "_show_tasks", "_get_selected_task_names",
   "on_task_double_click", "_get_task_details", "on_task_select",
   "cancel_task_async", "_delete_tasks_batch", "_after_delete_tasks",
   "SERIES_RE", "_series_group_key"]

/-- Instance attributes assigned on `App` objects, collected from
`__init__`, `_finish_init` and `build_ui`. -/
def appInstanceAttrs : List String :=
  ["cfg", "ffmpeg_path", "m3u_entries", "chmap", "progs", "epg_ready",
   "tasks_index", "scroll", "m3u_var", "e_m3u", "btn_reload_m3u", "epg_var",
   "e_epg", "btn_reload_epg", "quality_var", "quality_help", "outdir_var",
   "filename_var", "filename_entry", "crash_safe_var", "preview_lbl",
   "series_days_var", "show_var", "entry_show", "btn_find_epg",
   "btn_clear_epg", "btn_use_show", "show_list", "search_var",
   "entry_channel", "btn_find_channel", "btn_clear_channel", "chan_list",
   "day_var", "time_var", "dur_var", "buf_start_var", "buf_end_var",
   "buf_start_min", "buf_end_min", "status", "tasks_list", "series_info"]

/-- Attribute lookup on an `App` object: instance dictionary, then the class
(and its `tkinter` bases, none of which define the names of interest;
`tkinter.Tk.__getattr__` delegates the rest to the Tcl interpreter object,
which raises `AttributeError` for them as well). -/
def appHasAttr (n : String) : Bool :=
  appInstanceAttrs.contains n || appClassAttrs.contains n

/-- Embedding of `App.series_record_async` (vlciptv_recorder.py:999-1001).
Building the `Worker` evaluates `self._series_record` eagerly in the calling
thread, so the attribute lookup happens before the worker body (modelled by
the abstract continuation `run`) could register any task. -/
def series_record_async (run : List Task → List Task) (tasks : List Task) :
    Except PyError Unit × List Task :=
  if appHasAttr "_series_record" then (.ok (), run tasks)
  else (.error (.attributeError "_series_record"), tasks)

/-! ### Progress-line parsing (`WaitRecordLive._update_stats_from_line`) -/

/-- Character class `[0-9.]`. -/
def isNumDot (c : Char) : Bool := c.isDigit || c = '.'

/-- Generic `re.search` driver: try the anchored matcher at every suffix,
left to right, returning the first success. -/
def scan {α : Type} (f : List Char → Option α) : List Char → Option α
  | [] => f []
  | c :: rest =>
    match f (c :: rest) with
    | some v => some v
    | none => scan f rest

/-- Anchored matcher for `time=(\d+):(\d+):(\d+)`. -/
def matchTimeAt : List Char → Option (Nat × Nat × Nat)
  | 't' :: 'i' :: 'm' :: 'e' :: '=' :: rest =>
    (match rest.span (fun c => c.isDigit) with
     | ([], _) => none
     | (d1, ':' :: r2) =>
       (match r2.span (fun c => c.isDigit) with
        | ([], _) => none
        | (d2, ':' :: r4) =>
          (match r4.span (fun c => c.isDigit) with
           | ([], _) => none
           | (d3, _) => some (natOfDigits d1, natOfDigits d2, natOfDigits d3))
        | _ => none)
     | _ => none)
  | _ => none

/-- Anchored matcher for `fps=\s*([0-9.]+)`. -/
def matchFpsAt : List Char → Option (List Char)
  | 'f' :: 'p' :: 's' :: '=' :: rest =>
    (match (rest.dropWhile isSpaceChar).span isNumDot with
     | ([], _) => none
     | (num, _) => some num)
  | _ => none

/-- Anchored matcher for `bitrate=\s*([0-9.]+)\s*kbits/s`. -/
def matchBitrateAt : List Char → Option (List Char)
  | 'b' :: 'i' :: 't' :: 'r' :: 'a' :: 't' :: 'e' :: '=' :: rest =>
    (match (rest.dropWhile isSpaceChar).span isNumDot with
     | ([], _) => none
     | (num, r2) =>
       (match r2.dropWhile isSpaceChar with
        | 'k' :: 'b' :: 'i' :: 't' :: 's' :: '/' :: 's' :: _ => some num
        | _ => none))
  | _ => none

/-- Anchored matcher for `size=\s*([0-9.]+)\s*([kM]?B|KiB|MiB)`, returning
the numeral and the unit text exactly as the alternation captures it. -/
def matchSizeAt : List Char → Option (List Char × List Char)
  | 's' :: 'i' :: 'z' :: 'e' :: '=' :: rest =>
    (match (rest.dropWhile isSpaceChar).span isNumDot with
     | ([], _) => none
     | (num, r2) =>
       (match r2.dropWhile isSpaceChar with
        | 'K' :: 'i' :: 'B' :: _ => some (num, ['K', 'i', 'B'])
        | 'M' :: 'i' :: 'B' :: _ => some (num, ['M', 'i', 'B'])
        | 'k' :: 'B' :: _ => some (num, ['k', 'B'])
        | 'M' :: 'B' :: _ => some (num, ['M', 'B'])
        | 'B' :: _ => some (num, ['B'])
        | _ => none))
  | _ => none

/-- Value of a `[0-9.]+` numeral as Python `float` reads it, as an exact
rational (a numeral with several dots would raise in Python; such text never
reaches the conversion and is given value 0 here). -/
def ratOfNumeral (l : List Char) : ℚ :=
  match l.span (fun c => c.isDigit) with
  | (ip, []) => (natOfDigits ip : ℚ)
  | (ip, '.' :: fp) =>
    if fp.all (fun c => c.isDigit) then
      (natOfDigits ip : ℚ) + (natOfDigits fp : ℚ) / ((10 : ℚ) ^ fp.length)
    else 0
  | _ => 0

/-- Byte count of a size figure, per the unit conversion at
vlciptv_recorder.py:1279-1282 (the source lowercases the unit first). -/
def bytesOf (amt : ℚ) (unit : List Char) : ℚ :=
  let u := unit.map Char.toLower
  if u = ['k', 'b'] ∨ u = ['k', 'i', 'b'] then amt * 1024
  else if u = ['m', 'b'] ∨ u = ['m', 'i', 'b'] then amt * 1024 * 1024
  else amt

/-- Session statistics derived from one progress line.  The source keeps fps
and kbps as display strings; they are carried here as exact rationals (the
`:.1f` formatting of the derived throughput is display-only). -/
structure Stats where
  elapsed : Nat
  kbps : Option ℚ
  fps : Option ℚ
deriving DecidableEq

/-- Elapsed seconds after inspecting one line: an `HH:MM:SS` time marker
overwrites the running value (vlciptv_recorder.py:1268-1271). -/
def elapsed_after (line : List Char) (elapsed0 : Nat) : Nat :=
  match scan matchTimeAt line with
  | some hms => hms.1 * 3600 + hms.2.1 * 60 + hms.2.2
  | none => elapsed0

/-- Throughput figure for one line (vlciptv_recorder.py:1272-1283): a
`kbits/s` bitrate marker wins; otherwise a cumulative size marker yields the
derived throughput `bytes * 8 / 1000 / elapsed`, computed only when the
already-updated elapsed time is positive. -/
def kbps_after (line : List Char) (elapsed : Nat) : Option ℚ :=
  match scan matchBitrateAt line with
  | some num => some (ratOfNumeral num)
  | none =>
    match scan matchSizeAt line with
    | some p =>
      if 0 < elapsed then
        some (bytesOf (ratOfNumeral p.1) p.2 * 8 / 1000 / (elapsed : ℚ))
      else none
    | none => none

/-- Embedding of `WaitRecordLive._update_stats_from_line`
(vlciptv_recorder.py:1267-1289). -/
def update_stats_from_line (line : List Char) (elapsed0 : Nat) : Stats :=
  { elapsed := elapsed_after line elapsed0,
    kbps := kbps_after line (elapsed_after line elapsed0),
    fps := (scan matchFpsAt line).map ratOfNumeral }

/-! ## Theorems -/

/-! ### Character and list helper lemmas -/

/-- Digit characters have code in `[48, 57]`. -/
theorem digit_toNat (c : Char) (h : c.isDigit = true) : 48 ≤ c.toNat ∧ c.toNat ≤ 57 := by
  simpa only [Char.isDigit, Bool.and_eq_true, decide_eq_true_eq] using h

/-- `Char.toLower` fixes every character below the uppercase range. -/
theorem toLower_of_lt (c : Char) (h : c.toNat < 65) : Char.toLower c = c := by
  unfold Char.toLower
  rw [if_neg (by omega)]

/-- Digits are not whitespace. -/
theorem digit_not_space (c : Char) (h : c.isDigit = true) : isSpaceChar c = false := by
  have hn := digit_toNat c h
  cases hx : isSpaceChar c
  · rfl
  · exfalso
    simp only [isSpaceChar, Bool.or_eq_true, decide_eq_true_eq] at hx
    rcases hx with ((((h' | h') | h') | h') | h') | h' <;> subst h' <;> exact absurd hn (by decide)

/-- Digits are already lowercase. -/
theorem digit_toLower (c : Char) (h : c.isDigit = true) : Char.toLower c = c :=
  toLower_of_lt c (by have := digit_toNat c h; omega)

/-- A digit differs from any non-digit. -/
theorem digit_ne (c c' : Char) (h : c.isDigit = true) (h' : c'.isDigit = false) : c ≠ c' := by
  intro he
  subst he
  rw [h] at h'
  cases h'

/-- The head given by `head?` is a member. -/
theorem head?_mem {l : List Char} {c : Char} (h : l.head? = some c) : c ∈ l := by
  cases l with
  | nil => cases h
  | cons a t =>
      simp only [List.head?_cons, Option.some.injEq] at h
      subst h
      exact List.mem_cons_self a t

/-- `dropWhile` is the identity when the head (if any) fails the predicate. -/
theorem dropWhile_head_eq_self (p : Char → Bool) (l : List Char)
    (h : ∀ c, l.head? = some c → p c = false) : l.dropWhile p = l := by
  cases l with
  | nil => rfl
  | cons a t => simp [List.dropWhile_cons, h a rfl]

/-- `stripChars` is the identity on whitespace-free lists. -/
theorem stripChars_eq_self (l : List Char) (h : ∀ c ∈ l, isSpaceChar c = false) :
    stripChars l = l := by
  unfold stripChars
  rw [dropWhile_head_eq_self _ _ (fun c hc => h c (head?_mem hc)),
      dropWhile_head_eq_self _ _ (fun c hc => h c (List.mem_reverse.mp (head?_mem hc))),
      List.reverse_reverse]

/-- Mapping a pointwise-identity function is the identity. -/
theorem map_eq_self (f : Char → Char) (l : List Char) (h : ∀ c ∈ l, f c = c) :
    l.map f = l := by
  induction l with
  | nil => rfl
  | cons a t ih => simp [h a (by simp), ih (fun c hc => h c (by simp [hc]))]

/-- `strip().lower()` is the identity on whitespace-free, lowercase-stable
character lists. -/
theorem stripLower_eq_self (l : List Char) (hs : ∀ c ∈ l, isSpaceChar c = false)
    (hl : ∀ c ∈ l, Char.toLower c = c) : stripLower (String.mk l) = l := by
  unfold stripLower
  rw [show (String.mk l).toList = l from rfl, stripChars_eq_self l hs, map_eq_self _ _ hl]

/-- `takeWhile`/`dropWhile` split an all-true block from a rest whose head
fails the predicate. -/
theorem takeWhile_dropWhile_all_append (p : Char → Bool) (l r : List Char)
    (hl : ∀ c ∈ l, p c = true) (hr : ∀ c, r.head? = some c → p c = false) :
    (l ++ r).takeWhile p = l ∧ (l ++ r).dropWhile p = r := by
  induction l with
  | nil =>
      simp only [List.nil_append]
      exact ⟨by cases r with
              | nil => rfl
              | cons c t => simp [List.takeWhile_cons, hr c rfl],
             dropWhile_head_eq_self p r hr⟩
  | cons a t ih =>
      have ha := hl a (by simp)
      have ih' := ih (fun c hc => hl c (by simp [hc]))
      exact ⟨by simp [List.takeWhile_cons, ha, ih'.1],
             by simp [List.dropWhile_cons, ha, ih'.2]⟩

/-- `span` version of the block split. -/
theorem span_all_append (p : Char → Bool) (l r : List Char)
    (hl : ∀ c ∈ l, p c = true) (hr : ∀ c, r.head? = some c → p c = false) :
    (l ++ r).span p = (l, r) := by
  rw [List.span_eq_take_drop, (takeWhile_dropWhile_all_append p l r hl hr).1,
      (takeWhile_dropWhile_all_append p l r hl hr).2]

/-- `span` of an all-digit list consumes everything. -/
theorem span_digits_all (l : List Char) (hd : ∀ c ∈ l, c.isDigit = true) :
    l.span (fun c => c.isDigit) = (l, []) := by
  have h := span_all_append (fun c => c.isDigit) l [] hd (fun c hc => by cases hc)
  simpa using h

/-- Any duration `parse_duration` accepts is nonnegative: every branch sums
nonnegative contributions of digits. -/
theorem parse_duration_nonneg (s : String) (d : Int) (h : parse_duration s = .ok d) : 0 ≤ d := by
  simp only [parse_duration] at h
  split at h
  · cases h
    exact Int.natCast_nonneg _
  · split at h
    · cases h
      exact Int.natCast_nonneg _
    · split at h
      · cases h
        exact mul_nonneg (Int.natCast_nonneg _) (by norm_num)
      · cases h

/-- The duration resolved by `_schedule_task` (default included) is
nonnegative. -/
theorem duration_of_input_nonneg (s : String) (d : Int)
    (h : duration_of_input s = .ok d) : 0 ≤ d := by
  unfold duration_of_input at h
  split at h
  · cases h
    norm_num
  · exact parse_duration_nonneg s d h

/-- C1: for requested duration `D` and enabled buffers of `m` and `n` minutes
(`m, n ≥ 0`), the scheduled job starts `m*60` seconds before the resolved
start and runs `D + (m+n)*60` seconds; with only the end buffer the start is
unchanged and the duration is `D + n*60`; with only the start buffer the
start moves earlier by `m*60` and the duration is `D + m*60`. -/
theorem schedule_buffer_window
    (ffmpeg ch_url : String) (now start_parsed : Int) (day_var dur_var out_path : String)
    (qopt : Quality) (crash_safe : Bool) (D r m n : Int)
    (hD : duration_of_input dur_var = .ok D)
    (hr : ensure_future_start now start_parsed day_var = .keep r ∨
          ensure_future_start now start_parsed day_var = .bumped r)
    (hm : 0 ≤ m) (hn : 0 ≤ n) :
    (∃ job, schedule_task ffmpeg ch_url now start_parsed day_var dur_var
        true m true n out_path qopt crash_safe = .ok job ∧
      job.start_at = r - m * 60 ∧ job.dur_s = D + (m + n) * 60) ∧
    (∃ job, schedule_task ffmpeg ch_url now start_parsed day_var dur_var
        false m true n out_path qopt crash_safe = .ok job ∧
      job.start_at = r ∧ job.dur_s = D + n * 60) ∧
    (∃ job, schedule_task ffmpeg ch_url now start_parsed day_var dur_var
        true m false n out_path qopt crash_safe = .ok job ∧
      job.start_at = r - m * 60 ∧ job.dur_s = D + m * 60) := by
  unfold schedule_task
  rw [hD]
  rcases hr with h | h <;> rw [h] <;>
    exact ⟨⟨_, rfl, by simp [apply_buffers, max_eq_right hm], by
              simp [apply_buffers, max_eq_right hm, max_eq_right hn]; ring⟩,
           ⟨_, rfl, by simp [apply_buffers], by simp [apply_buffers, max_eq_right hn]⟩,
           ⟨_, rfl, by simp [apply_buffers, max_eq_right hm], by
              simp [apply_buffers, max_eq_right hm]⟩⟩

/-- Witness for C1: a 10-minute request at instant 100 with a 5-minute start
buffer and a 2-minute end buffer. -/
theorem schedule_buffer_window_witness :
    ∃ job, schedule_task "ffmpeg" "http://u" 0 100 "today" "10"
        true 5 true 2 "out.mp4" Quality.copy false = .ok job ∧
      job.start_at = 100 - 5 * 60 ∧ job.dur_s = 600 + (5 + 2) * 60 :=
  (schedule_buffer_window "ffmpeg" "http://u" 0 100 "today" "10" "out.mp4"
    Quality.copy false 600 100 5 2 (by decide) (Or.inl (by decide))
    (by norm_num) (by norm_num)).1

/-- C2: when the resolved instant is not strictly after now, a relative day
("today" or blank, after strip/lowercase) is rolled forward by exactly one
day (same wall-clock time, `+86400` naive seconds) as a non-fatal adjustment,
while any other day text — in particular an explicit calendar date — makes
`_ensure_future_start` report the past-start error, after which
`_schedule_task` produces no job. -/
theorem past_start_resolution (now start_at : Int) (day_var : String)
    (hpast : start_at ≤ now) :
    ((stripLower day_var = "".toList ∨ stripLower day_var = "today".toList) →
      ensure_future_start now start_at day_var = .bumped (start_at + 86400)) ∧
    (¬(stripLower day_var = "".toList ∨ stripLower day_var = "today".toList) →
      ensure_future_start now start_at day_var = .pastError ∧
      ∀ (ffmpeg ch_url dur_var out_path : String) (b1 : Bool) (m : Int) (b2 : Bool) (n : Int)
        (qopt : Quality) (cs : Bool) (job : Job),
        schedule_task ffmpeg ch_url now start_at day_var dur_var b1 m b2 n out_path qopt cs ≠
          .ok job) := by
  constructor
  · intro hd
    unfold ensure_future_start
    rw [if_neg (by omega), if_pos hd]
  · intro hd
    have he : ensure_future_start now start_at day_var = .pastError := by
      unfold ensure_future_start
      rw [if_neg (by omega), if_neg hd]
    refine ⟨he, ?_⟩
    intro ffmpeg ch_url dur_var out_path b1 m b2 n qopt cs job
    unfold schedule_task
    cases hD : duration_of_input dur_var
    · simp
    · rw [he]
      simp

/-- Witness for C2: instant 50 at current time 100, for a relative day and
for an explicit date. -/
theorem past_start_resolution_witness :
    ensure_future_start 100 50 "today" = .bumped (50 + 86400) ∧
    ensure_future_start 100 50 "2020-01-01" = .pastError :=
  ⟨(past_start_resolution 100 50 "today" (by norm_num)).1 (Or.inr (by decide)),
   ((past_start_resolution 100 50 "2020-01-01" (by norm_num)).2 (by decide)).1⟩

/-- C3 counterexample: the claim puts the reconnect flags before the
user-agent, so it entails that `["-reconnect", "-user_agent"]` occurs as an
ordered subsequence of the invocation; at this concrete input it does not
(the builder emits `-user_agent` first). -/
theorem engine_invocation_order_counterexample :
    ¬ List.Sublist ["-reconnect", "-user_agent"]
        (build_ffmpeg_cmd "ffmpeg" "http://example/stream" "out.mp4" 60 Quality.copy false) := by
  decide

/-- C3 (amended): every built invocation consists, in this order, of fixed
logging flags, the fixed user-agent identity, then the network auto-reconnect
flags, then `-i <source_url>`, then `-t <duration_seconds>`, then
stream/codec selection flags, then the container `-movflags`, with the output
path as the final argument. -/
theorem engine_invocation_order (ffmpeg stream_url out_path : String)
    (duration_s : Int) (qopt : Quality) (crash_safe : Bool) :
    ∃ codec_flags mov,
      build_ffmpeg_cmd ffmpeg stream_url out_path duration_s qopt crash_safe =
        [ffmpeg, "-hide_banner", "-loglevel", "info", "-stats", "-user_agent", UA,
         "-reconnect", "1", "-reconnect_streamed", "1", "-reconnect_at_eof", "1",
         "-i", stream_url, "-t", toString duration_s] ++
        codec_flags ++ ["-movflags", mov, out_path] := by
  cases qopt with
  | copy => exact ⟨["-c", "copy"], _, rfl⟩
  | trans vb ab =>
      exact ⟨["-map", "0:v:0?", "-map", "0:a:0?", "-c:v", "libx264", "-preset", "veryfast",
              "-b:v", vb, "-maxrate", vb, "-bufsize", "2M", "-c:a", "aac", "-b:a", ab], _, rfl⟩

/-- C4: the finalize pass replaces the original only when the remux run
completed and produced the fixed sibling (in which case the original receives
the remuxed content and the sibling disappears); if the run raises, produces
no fixed file, or the replacement itself fails, the original file is
unchanged — and the pass as a whole never propagates a failure
(`finalize_recording` is total).  The hypothesis states that the remux
process does not write to the original path: it reads it and writes the
sibling. -/
theorem finalize_keeps_original_unless_remux_succeeds
    (fs : FS) (p : String) (run : RunOutcome) (replace_raises : Bool)
    (hpres : run.fs p = fs p) :
    (∀ fs', run = .raises fs' → finalize_recording fs p run replace_raises p = fs p) ∧
    (∀ fs', run = .completes fs' → fs' (p ++ ".fixed.mp4") = none →
      finalize_recording fs p run replace_raises p = fs p) ∧
    (replace_raises = true → finalize_recording fs p run replace_raises p = fs p) ∧
    (∀ fs' c, run = .completes fs' → fs' (p ++ ".fixed.mp4") = some c →
      replace_raises = false → (∃ o, fs p = some o) →
      finalize_recording fs p run replace_raises p = some c ∧
      finalize_recording fs p run replace_raises (p ++ ".fixed.mp4") = none) := by
  have hne : p ++ ".fixed.mp4" ≠ p := by
    intro he
    have hlen := congrArg String.length he
    rw [String.length_append] at hlen
    have : (".fixed.mp4" : String).length = 10 := by decide
    omega
  refine ⟨?_, ?_, ?_, ?_⟩
  · rintro fs' rfl
    have h' : fs' p = fs p := hpres
    unfold finalize_recording finalize_try
    cases hfp : fs p <;> simp [hfp, h']
  · rintro fs' rfl hfix
    have h' : fs' p = fs p := hpres
    unfold finalize_recording finalize_try
    cases hfp : fs p <;> simp [hfp, hfix, h']
  · rintro rfl
    unfold finalize_recording finalize_try
    cases run with
    | raises fs' =>
        have h' : fs' p = fs p := hpres
        cases hfp : fs p <;> simp [hfp, h']
    | completes fs' =>
        have h' : fs' p = fs p := hpres
        cases hfp : fs p <;> cases hfix : fs' (p ++ ".fixed.mp4") <;> simp [hfp, hfix, h']
  · rintro fs' c rfl hfix rfl ⟨o, ho⟩
    unfold finalize_recording finalize_try
    simp [ho, hfix, hne]

/-- Witness for C4: a timed-out remux leaves the single original file
untouched. -/
theorem finalize_keeps_original_witness :
    finalize_recording (fun q => if q = "a.mp4" then some "orig" else none) "a.mp4"
        (RunOutcome.raises (fun q => if q = "a.mp4" then some "orig" else none)) false "a.mp4" =
      (fun q => if q = "a.mp4" then (some "orig" : Option String) else none) "a.mp4" :=
  (finalize_keeps_original_unless_remux_succeeds
      (fun q => if q = "a.mp4" then some "orig" else none) "a.mp4"
      (RunOutcome.raises (fun q => if q = "a.mp4" then some "orig" else none)) false rfl).1
    (fun q => if q = "a.mp4" then some "orig" else none) rfl

/-- C6 (code bug at the failing input): with one scheduled series task
selected and present in `tasks_index`, the claim expects the Series Info view
to list exactly that task, but the handler raises `AttributeError` on the
undefined `SERIES_PREFIX` before inserting anything — even though the
member computation itself (the `startswith` filter) does select the task.
The `tasks_index` is at least left unmutated. -/
theorem series_pane_raises_attribute_error :
    on_task_select [("IPTV_DVR_SERIES_MyShow_20240101_2000", "2024-01-01", "Once", "Ready")]
        ["IPTV_DVR_SERIES_MyShow_20240101_2000"] =
      (.error (.attributeError "SERIES_PREFIX"),
       [("IPTV_DVR_SERIES_MyShow_20240101_2000", "2024-01-01", "Once", "Ready")]) ∧
    [("IPTV_DVR_SERIES_MyShow_20240101_2000", "2024-01-01", "Once", "Ready")].filter
        (fun t : Task => ("IPTV_DVR_SERIES_MyShow" ++ "_").toList.isPrefixOf t.1.toList) =
      [("IPTV_DVR_SERIES_MyShow_20240101_2000", "2024-01-01", "Once", "Ready")] := by
  constructor
  · decide
  · decide

/-- C9 counterexample: a duration field of `"0"` is accepted (it is a bare
integer of minutes) and, with both buffers disabled, the scheduling pipeline
produces a job whose capture duration is `0`, contradicting the claimed
`duration_seconds ≥ 1` invariant. -/
theorem scheduled_duration_zero_counterexample :
    Except.map Job.dur_s (schedule_task "ffmpeg" "http://u" 0 100 "today" "0"
        false 0 false 0 "out.mp4" Quality.copy false) = .ok 0 ∧
    ¬ (1 ≤ (0 : Int)) := by
  constructor
  · decide
  · decide

/-- C9 (amended): every job the scheduling pipeline produces has a
buffer-adjusted `duration_seconds ≥ 0` (zero is reachable, e.g. for duration
input "0" with buffers disabled), and exactly that duration is passed to the
capture-engine invocation. -/
theorem scheduled_duration_nonneg
    (ffmpeg ch_url : String) (now start_parsed : Int) (day_var dur_var out_path : String)
    (b1 : Bool) (m : Int) (b2 : Bool) (n : Int) (qopt : Quality) (cs : Bool) (job : Job)
    (h : schedule_task ffmpeg ch_url now start_parsed day_var dur_var b1 m b2 n out_path qopt cs =
      .ok job) :
    0 ≤ job.dur_s ∧ job.cmd = build_ffmpeg_cmd ffmpeg ch_url out_path job.dur_s qopt cs := by
  unfold schedule_task at h
  cases hD : duration_of_input dur_var with
  | error e => rw [hD] at h; cases h
  | ok dur0 =>
    rw [hD] at h
    have h0 : 0 ≤ dur0 := duration_of_input_nonneg _ _ hD
    have hbuf : ∀ t : Int, 0 ≤ (apply_buffers t dur0 b1 m b2 n).2 := by
      intro t
      have hm' : 0 ≤ max 0 m * 60 := mul_nonneg (le_max_left 0 m) (by norm_num)
      have hn' : 0 ≤ max 0 n * 60 := mul_nonneg (le_max_left 0 n) (by norm_num)
      unfold apply_buffers
      cases b1 <;> cases b2 <;> simp <;> linarith
    cases he : ensure_future_start now start_parsed day_var with
    | pastError => rw [he] at h; cases h
    | keep t =>
        rw [he] at h
        cases h
        exact ⟨hbuf t, rfl⟩
    | bumped t =>
        rw [he] at h
        cases h
        exact ⟨hbuf t, rfl⟩

/-- Witness for C9 (amended): the job scheduled from a 10-minute request. -/
theorem scheduled_duration_nonneg_witness :
    0 ≤ (Job.mk 100 600 "out.mp4" (build_ffmpeg_cmd "ffmpeg" "http://u" "out.mp4" 600
          Quality.copy false)).dur_s ∧
    (Job.mk 100 600 "out.mp4" (build_ffmpeg_cmd "ffmpeg" "http://u" "out.mp4" 600
        Quality.copy false)).cmd =
      build_ffmpeg_cmd "ffmpeg" "http://u" "out.mp4"
        (Job.mk 100 600 "out.mp4" (build_ffmpeg_cmd "ffmpeg" "http://u" "out.mp4" 600
          Quality.copy false)).dur_s Quality.copy false :=
  scheduled_duration_nonneg "ffmpeg" "http://u" 0 100 "today" "10" "out.mp4"
    false 0 false 0 Quality.copy false _ (by decide)

/-- C10: `_series_record` is not defined anywhere on `App` (neither as an
instance attribute nor in the class body), so every invocation of the
series-record action raises `AttributeError` while building the worker —
before any task could be registered — whatever the intended worker body
(`run`) would have done. -/
theorem series_record_always_attribute_error :
    appHasAttr "_series_record" = false ∧
    ∀ (run : List Task → List Task) (tasks : List Task),
      series_record_async run tasks = (.error (.attributeError "_series_record"), tasks) := by
  have hff : appHasAttr "_series_record" = false := by decide
  refine ⟨hff, ?_⟩
  intro run tasks
  unfold series_record_async
  rw [hff]
  simp

/-! ### Progress-line parsing (C7) -/

/-- C7: the canonical progress line maps to elapsed 65 s, fps 30 and bitrate
4500.0 kbit/s; and any line carrying a cumulative byte-size marker but no
kbit/s bitrate marker, with positive (post-update) elapsed time, derives the
throughput `bytes * 8 / 1000 / elapsed`. -/
theorem progress_line_parsing :
    (∀ e0 : Nat,
      update_stats_from_line ("frame=100 fps=30 time=00:01:05 bitrate=4500.0kbits/s".toList) e0 =
        { elapsed := 65, kbps := some 4500, fps := some 30 }) ∧
    (∀ (line : List Char) (e0 : Nat) (num unit : List Char),
      scan matchBitrateAt line = none →
      scan matchSizeAt line = some (num, unit) →
      0 < elapsed_after line e0 →
      (update_stats_from_line line e0).kbps =
        some (bytesOf (ratOfNumeral num) unit * 8 / 1000 / (elapsed_after line e0 : ℚ))) := by
  constructor
  · intro e0
    have h1 : scan matchTimeAt ("frame=100 fps=30 time=00:01:05 bitrate=4500.0kbits/s".toList) =
        some (0, 1, 5) := by decide
    have h2 : scan matchBitrateAt ("frame=100 fps=30 time=00:01:05 bitrate=4500.0kbits/s".toList) =
        some ['4', '5', '0', '0', '.', '0'] := by decide
    have h3 : scan matchFpsAt ("frame=100 fps=30 time=00:01:05 bitrate=4500.0kbits/s".toList) =
        some ['3', '0'] := by decide
    have r1 : ratOfNumeral ['4', '5', '0', '0', '.', '0'] = (4500 : ℚ) := by
      simp [ratOfNumeral, natOfDigits]
    have r2 : ratOfNumeral ['3', '0'] = (30 : ℚ) := by simp [ratOfNumeral, natOfDigits]
    simp only [update_stats_from_line, elapsed_after, kbps_after, h1, h2, h3, r1, r2,
      Option.map_some']
  · intro line e0 num unit hb hs he
    unfold update_stats_from_line kbps_after
    rw [hb, hs]
    simp [he]

/-- Witness for C7: the canonical line, and the size-derived throughput of
`frame=1 size= 2MB x` at 4 s elapsed. -/
theorem progress_line_parsing_witness :
    update_stats_from_line ("frame=100 fps=30 time=00:01:05 bitrate=4500.0kbits/s".toList) 0 =
      { elapsed := 65, kbps := some 4500, fps := some 30 } ∧
    (update_stats_from_line ("frame=1 size= 2MB x".toList) 4).kbps =
      some (bytesOf (ratOfNumeral ['2']) ['M', 'B'] * 8 / 1000 /
        ((elapsed_after ("frame=1 size= 2MB x".toList) 4 : Nat) : ℚ)) :=
  ⟨progress_line_parsing.1 0,
   progress_line_parsing.2 ("frame=1 size= 2MB x".toList) 4 ['2'] ['M', 'B']
     (by decide) (by decide) (by decide)⟩

/-! ### Duration parsing (C8) -/

/-- `matchColon` succeeds on every well-formed colon input. -/
theorem matchColon_build (l1 : List Char) (a b c d : Char)
    (h1 : l1 ≠ []) (hd1 : ∀ x ∈ l1, x.isDigit = true)
    (ha : a.isDigit = true) (hb : b.isDigit = true)
    (hc : c.isDigit = true) (hd : d.isDigit = true) :
    matchColon (l1 ++ ':' :: a :: b :: ':' :: c :: d :: []) =
      some (natOfDigits l1, natOfDigits [a, b], natOfDigits [c, d]) := by
  unfold matchColon
  rw [span_all_append _ l1 _ hd1 (fun x hx => by
    simp only [List.head?_cons, Option.some.injEq] at hx
    subst hx
    decide)]
  cases l1 with
  | nil => exact absurd rfl h1
  | cons y ys => simp [ha, hb, hc, hd]

/-- `matchColon` rejects all-digit inputs (no colon at all). -/
theorem matchColon_none_digits (l : List Char) (hd : ∀ c ∈ l, c.isDigit = true) :
    matchColon l = none := by
  unfold matchColon
  rw [span_digits_all l hd]
  cases l <;> rfl

/-- `matchColon` rejects inputs whose first non-digit is an `h`. -/
theorem matchColon_none_h (l1 rest : List Char) (hd1 : ∀ x ∈ l1, x.isDigit = true) :
    matchColon (l1 ++ 'h' :: rest) = none := by
  unfold matchColon
  rw [span_all_append _ l1 _ hd1 (fun x hx => by
    simp only [List.head?_cons, Option.some.injEq] at hx
    subst hx
    decide)]
  cases l1 <;> rfl

/-- `matchColon` rejects inputs whose first non-digit is an `m`. -/
theorem matchColon_none_m (l1 rest : List Char) (hd1 : ∀ x ∈ l1, x.isDigit = true) :
    matchColon (l1 ++ 'm' :: rest) = none := by
  unfold matchColon
  rw [span_all_append _ l1 _ hd1 (fun x hx => by
    simp only [List.head?_cons, Option.some.injEq] at hx
    subst hx
    decide)]
  cases l1 <;> rfl

/-- `matchColon` rejects inputs whose first non-digit is an `s`. -/
theorem matchColon_none_s (l1 rest : List Char) (hd1 : ∀ x ∈ l1, x.isDigit = true) :
    matchColon (l1 ++ 's' :: rest) = none := by
  unfold matchColon
  rw [span_all_append _ l1 _ hd1 (fun x hx => by
    simp only [List.head?_cons, Option.some.injEq] at hx
    subst hx
    decide)]
  cases l1 <;> rfl

/-- `takeNum` consumes a digit run followed by its suffix letter. -/
theorem takeNum_build (dl rest : List Char) (suf : Char)
    (hne : dl ≠ []) (hdig : ∀ c ∈ dl, c.isDigit = true) (hsuf : suf.isDigit = false) :
    takeNum (dl ++ suf :: rest) suf = some (natOfDigits dl, rest) := by
  unfold takeNum
  rw [span_all_append _ dl _ hdig (fun x hx => by
    simp only [List.head?_cons, Option.some.injEq] at hx
    subst hx
    exact hsuf)]
  cases dl with
  | nil => exact absurd rfl hne
  | cons y ys => simp

/-- `takeNum` fails on all-digit inputs (no suffix letter). -/
theorem takeNum_none_digits (l : List Char) (hd : ∀ c ∈ l, c.isDigit = true) (suf : Char) :
    takeNum l suf = none := by
  unfold takeNum
  rw [span_digits_all l hd]
  cases l <;> rfl

/-- `takeNum` fails on the empty list. -/
theorem takeNum_nil (suf : Char) : takeNum [] suf = none := rfl

/-- `takeNum` fails when the first non-digit is a different character than
the wanted suffix letter. -/
theorem takeNum_wrong_suffix (dl rest : List Char) (c0 suf : Char)
    (hdig : ∀ c ∈ dl, c.isDigit = true) (hc0 : c0.isDigit = false) (hne : c0 ≠ suf) :
    takeNum (dl ++ c0 :: rest) suf = none := by
  unfold takeNum
  rw [span_all_append _ dl _ hdig (fun x hx => by
    simp only [List.head?_cons, Option.some.injEq] at hx
    subst hx
    exact hc0)]
  cases dl with
  | nil => simp [hne]
  | cons y ys => simp [hne]

/-- `matchComposite` succeeds on a full `NhNmNs` token. -/
theorem matchComposite_build (lh lm ls : List Char)
    (h1 : lh ≠ []) (hd1 : ∀ c ∈ lh, c.isDigit = true)
    (h2 : lm ≠ []) (hd2 : ∀ c ∈ lm, c.isDigit = true)
    (h3 : ls ≠ []) (hd3 : ∀ c ∈ ls, c.isDigit = true) :
    matchComposite (lh ++ ('h' :: (lm ++ ('m' :: (ls ++ ['s']))))) =
      some (natOfDigits lh * 3600 + natOfDigits lm * 60 + natOfDigits ls) := by
  unfold matchComposite optNum
  simp only [takeNum_build lh (lm ++ 'm' :: (ls ++ ['s'])) 'h' h1 hd1 (by decide),
             takeNum_build lm (ls ++ ['s']) 'm' h2 hd2 (by decide),
             takeNum_build ls [] 's' h3 hd3 (by decide)]
  simp

/-- `matchComposite` succeeds on every composite token with at least one
optional group present, yielding the sum of the present groups'
contributions — an absent group contributes 0, as `int(m.group(k) or 0)`
does. -/
theorem matchComposite_build_gen (bh bm bs : Bool) (dh dm ds : List Char)
    (hor : bh = true ∨ bm = true ∨ bs = true)
    (hh : bh = true → dh ≠ [] ∧ ∀ c ∈ dh, c.isDigit = true)
    (hm : bm = true → dm ≠ [] ∧ ∀ c ∈ dm, c.isDigit = true)
    (hs : bs = true → ds ≠ [] ∧ ∀ c ∈ ds, c.isDigit = true) :
    matchComposite (optPart bh dh 'h' ++ optPart bm dm 'm' ++ optPart bs ds 's') =
      some ((if bh then natOfDigits dh else 0) * 3600 +
            (if bm then natOfDigits dm else 0) * 60 +
            (if bs then natOfDigits ds else 0)) := by
  cases bh <;> cases bm <;> cases bs
  · simp at hor
  · obtain ⟨h3, hd3⟩ := hs rfl
    rw [show optPart false dh 'h' ++ optPart false dm 'm' ++ optPart true ds 's' =
          ds ++ 's' :: [] from by simp [optPart]]
    unfold matchComposite optNum
    simp only [takeNum_wrong_suffix ds [] 's' 'h' hd3 (by decide) (by decide),
               takeNum_wrong_suffix ds [] 's' 'm' hd3 (by decide) (by decide),
               takeNum_build ds [] 's' h3 hd3 (by decide)]
    simp
  · obtain ⟨h2, hd2⟩ := hm rfl
    rw [show optPart false dh 'h' ++ optPart true dm 'm' ++ optPart false ds 's' =
          dm ++ 'm' :: [] from by simp [optPart]]
    unfold matchComposite optNum
    simp only [takeNum_wrong_suffix dm [] 'm' 'h' hd2 (by decide) (by decide),
               takeNum_build dm [] 'm' h2 hd2 (by decide), takeNum_nil]
    simp
  · obtain ⟨h2, hd2⟩ := hm rfl
    obtain ⟨h3, hd3⟩ := hs rfl
    rw [show optPart false dh 'h' ++ optPart true dm 'm' ++ optPart true ds 's' =
          dm ++ 'm' :: (ds ++ 's' :: []) from by simp [optPart]]
    unfold matchComposite optNum
    simp only [takeNum_wrong_suffix dm (ds ++ 's' :: []) 'm' 'h' hd2 (by decide) (by decide),
               takeNum_build dm (ds ++ 's' :: []) 'm' h2 hd2 (by decide),
               takeNum_build ds [] 's' h3 hd3 (by decide)]
    simp
  · obtain ⟨h1, hd1⟩ := hh rfl
    rw [show optPart true dh 'h' ++ optPart false dm 'm' ++ optPart false ds 's' =
          dh ++ 'h' :: [] from by simp [optPart]]
    unfold matchComposite optNum
    simp only [takeNum_build dh [] 'h' h1 hd1 (by decide), takeNum_nil]
    simp
  · obtain ⟨h1, hd1⟩ := hh rfl
    obtain ⟨h3, hd3⟩ := hs rfl
    rw [show optPart true dh 'h' ++ optPart false dm 'm' ++ optPart true ds 's' =
          dh ++ 'h' :: (ds ++ 's' :: []) from by simp [optPart]]
    unfold matchComposite optNum
    simp only [takeNum_build dh (ds ++ 's' :: []) 'h' h1 hd1 (by decide),
               takeNum_wrong_suffix ds [] 's' 'm' hd3 (by decide) (by decide),
               takeNum_build ds [] 's' h3 hd3 (by decide)]
    simp
  · obtain ⟨h1, hd1⟩ := hh rfl
    obtain ⟨h2, hd2⟩ := hm rfl
    rw [show optPart true dh 'h' ++ optPart true dm 'm' ++ optPart false ds 's' =
          dh ++ 'h' :: (dm ++ 'm' :: []) from by simp [optPart]]
    unfold matchComposite optNum
    simp only [takeNum_build dh (dm ++ 'm' :: []) 'h' h1 hd1 (by decide),
               takeNum_build dm [] 'm' h2 hd2 (by decide), takeNum_nil]
    simp
  · obtain ⟨h1, hd1⟩ := hh rfl
    obtain ⟨h2, hd2⟩ := hm rfl
    obtain ⟨h3, hd3⟩ := hs rfl
    rw [show optPart true dh 'h' ++ optPart true dm 'm' ++ optPart true ds 's' =
          dh ++ 'h' :: (dm ++ 'm' :: (ds ++ 's' :: [])) from by simp [optPart]]
    unfold matchComposite optNum
    simp only [takeNum_build dh (dm ++ 'm' :: (ds ++ 's' :: [])) 'h' h1 hd1 (by decide),
               takeNum_build dm (ds ++ 's' :: []) 'm' h2 hd2 (by decide),
               takeNum_build ds [] 's' h3 hd3 (by decide)]
    simp

/-- Characters of one optional composite group are whitespace-free and
lowercase-stable. -/
theorem optPart_chars (b : Bool) (dl : List Char) (suf : Char)
    (hd : b = true → ∀ c ∈ dl, c.isDigit = true)
    (hsuf : isSpaceChar suf = false ∧ Char.toLower suf = suf) :
    ∀ x ∈ optPart b dl suf, isSpaceChar x = false ∧ Char.toLower x = x := by
  cases b
  · intro x hx
    simp [optPart] at hx
  · intro x hx
    simp only [optPart, if_pos] at hx
    rcases List.mem_append.mp hx with h | h
    · exact ⟨digit_not_space x (hd rfl x h), digit_toLower x (hd rfl x h)⟩
    · rcases List.mem_cons.mp h with rfl | h
      · exact hsuf
      · exact absurd h (List.not_mem_nil x)

/-- `matchComposite` fails on all-digit inputs. -/
theorem matchComposite_none_digits (l : List Char) (hne : l ≠ [])
    (hd : ∀ c ∈ l, c.isDigit = true) : matchComposite l = none := by
  unfold matchComposite optNum
  simp only [takeNum_none_digits l hd]
  simp [hne]

/-- Soundness of `matchColon`: success implies the colon shape. -/
theorem matchColon_sound (l : List Char) (v : Nat × Nat × Nat)
    (h : matchColon l = some v) : colonClass l := by
  unfold matchColon at h
  split at h
  · cases h
  · rename_i x1 d1 a b c d hne heq
    rw [List.span_eq_take_drop] at heq
    have e1 : l.takeWhile (fun x => x.isDigit) = d1 := congrArg Prod.fst heq
    have e2 : l.dropWhile (fun x => x.isDigit) = ':' :: a :: b :: ':' :: c :: d :: [] :=
      congrArg Prod.snd heq
    split at h
    next hdig =>
      simp only [Bool.and_eq_true] at hdig
      refine ⟨d1, a, b, c, d, ⟨fun hn => hne hn, fun x hx =>
        List.mem_takeWhile_imp (e1 ▸ hx)⟩, ?_, ?_⟩
      · simp only [List.mem_cons, List.not_mem_nil, or_false]
        rintro x (rfl | rfl | rfl | rfl)
        · exact hdig.1.1.1
        · exact hdig.1.1.2
        · exact hdig.1.2
        · exact hdig.2
      · conv_lhs => rw [← List.takeWhile_append_dropWhile (fun x => x.isDigit) l]
        rw [e1, e2]
    next => cases h
  · cases h

/-- Soundness of `takeNum`: success implies a digit run plus suffix shape. -/
theorem takeNum_sound (l : List Char) (suf : Char) (n : Nat) (r : List Char)
    (h : takeNum l suf = some (n, r)) :
    ∃ dl, dl ≠ [] ∧ (∀ c ∈ dl, c.isDigit = true) ∧ l = dl ++ suf :: r ∧ n = natOfDigits dl := by
  unfold takeNum at h
  split at h
  · cases h
  · cases h
  · rename_i x1 d c rest hne heq
    rw [List.span_eq_take_drop] at heq
    have e1 : l.takeWhile (fun x => x.isDigit) = d := congrArg Prod.fst heq
    have e2 : l.dropWhile (fun x => x.isDigit) = c :: rest := congrArg Prod.snd heq
    split at h
    next hcs =>
      subst hcs
      cases h
      refine ⟨d, fun hn => hne hn, fun x hx => List.mem_takeWhile_imp (e1 ▸ hx), ?_, rfl⟩
      conv_lhs => rw [← List.takeWhile_append_dropWhile (fun x => x.isDigit) l]
      rw [e1, e2]
    next => cases h

/-- Soundness of `matchComposite`: success implies the composite shape with
at least one group present. -/
theorem matchComposite_sound (l : List Char) (v : Nat) (h : matchComposite l = some v) :
    compositeClass l := by
  unfold matchComposite optNum at h
  rcases hh : takeNum l 'h' with _ | ⟨nh, rh⟩ <;> simp only [hh] at h
  · rcases hm : takeNum l 'm' with _ | ⟨nm, rm⟩ <;> simp only [hm] at h
    · rcases hs : takeNum l 's' with _ | ⟨ns, rs⟩ <;> simp only [hs] at h
      · simp at h
      · obtain ⟨ds, hne, hdig, hl, _⟩ := takeNum_sound l 's' ns rs hs
        by_cases hrs : rs = []
        · subst hrs
          exact ⟨false, false, true, [], [], ds, by simp, by simp, by simp,
                 fun _ => ⟨hne, hdig⟩, by simp [optPart, hl]⟩
        · rw [if_neg (by simp [hrs])] at h
          cases h
    · obtain ⟨dm, hnem, hdigm, hlm, _⟩ := takeNum_sound l 'm' nm rm hm
      rcases hs : takeNum rm 's' with _ | ⟨ns, rs⟩ <;> simp only [hs] at h
      · by_cases hrm : rm = []
        · subst hrm
          exact ⟨false, true, false, [], dm, [], by simp, by simp,
                 fun _ => ⟨hnem, hdigm⟩, by simp, by simp [optPart, hlm]⟩
        · rw [if_neg (by simp [hrm])] at h
          cases h
      · obtain ⟨ds, hnes, hdigs, hls, _⟩ := takeNum_sound rm 's' ns rs hs
        by_cases hrs : rs = []
        · subst hrs
          refine ⟨false, true, true, [], dm, ds, by simp, by simp,
                 fun _ => ⟨hnem, hdigm⟩, fun _ => ⟨hnes, hdigs⟩, ?_⟩
          simp only [optPart, if_pos, if_neg, List.nil_append]
          rw [hlm, hls]
          simp
        · rw [if_neg (by simp [hrs])] at h
          cases h
  · obtain ⟨dh, hneh, hdigh, hlh, _⟩ := takeNum_sound l 'h' nh rh hh
    rcases hm : takeNum rh 'm' with _ | ⟨nm, rm⟩ <;> simp only [hm] at h
    · rcases hs : takeNum rh 's' with _ | ⟨ns, rs⟩ <;> simp only [hs] at h
      · by_cases hrh : rh = []
        · subst hrh
          exact ⟨true, false, false, dh, [], [], by simp,
                 fun _ => ⟨hneh, hdigh⟩, by simp, by simp, by simp [optPart, hlh]⟩
        · rw [if_neg (by simp [hrh])] at h
          cases h
      · obtain ⟨ds, hnes, hdigs, hls, _⟩ := takeNum_sound rh 's' ns rs hs
        by_cases hrs : rs = []
        · subst hrs
          refine ⟨true, false, true, dh, [], ds, by simp,
                 fun _ => ⟨hneh, hdigh⟩, by simp, fun _ => ⟨hnes, hdigs⟩, ?_⟩
          simp only [optPart, if_pos, if_neg, List.nil_append]
          rw [hlh, hls]
          simp
        · rw [if_neg (by simp [hrs])] at h
          cases h
    · obtain ⟨dm, hnem, hdigm, hlm, _⟩ := takeNum_sound rh 'm' nm rm hm
      rcases hs : takeNum rm 's' with _ | ⟨ns, rs⟩ <;> simp only [hs] at h
      · by_cases hrm : rm = []
        · subst hrm
          refine ⟨true, true, false, dh, dm, [], by simp,
                 fun _ => ⟨hneh, hdigh⟩, fun _ => ⟨hnem, hdigm⟩, by simp, ?_⟩
          simp only [optPart, if_pos, List.append_nil]
          rw [hlh, hlm]
          simp
        · rw [if_neg (by simp [hrm])] at h
          cases h
      · obtain ⟨ds, hnes, hdigs, hls, _⟩ := takeNum_sound rm 's' ns rs hs
        by_cases hrs : rs = []
        · subst hrs
          refine ⟨true, true, true, dh, dm, ds, by simp,
                 fun _ => ⟨hneh, hdigh⟩, fun _ => ⟨hnem, hdigm⟩, fun _ => ⟨hnes, hdigs⟩, ?_⟩
          simp only [optPart, if_pos]
          rw [hlh, hlm, hls]
          simp
        · rw [if_neg (by simp [hrs])] at h
          cases h

/-- Membership dispatch over an append. -/
theorem forall_mem_append {p : Char → Prop} {l r : List Char}
    (hl : ∀ c ∈ l, p c) (hr : ∀ c ∈ r, p c) : ∀ c ∈ l ++ r, p c := by
  intro c hc
  rcases List.mem_append.mp hc with h | h
  · exact hl c h
  · exact hr c h

/-- Membership dispatch over a cons. -/
theorem forall_mem_cons' {p : Char → Prop} {a : Char} {l : List Char}
    (ha : p a) (hl : ∀ c ∈ l, p c) : ∀ c ∈ a :: l, p c := by
  intro c hc
  rcases List.mem_cons.mp hc with rfl | h
  · exact ha
  · exact hl c h

/-- `isdigit` succeeds on nonempty all-digit lists. -/
theorem isDigitStr_eq_true (l : List Char) (hne : l ≠ []) (hd : ∀ c ∈ l, c.isDigit = true) :
    isDigitStr l = true := by
  cases l with
  | nil => exact absurd rfl hne
  | cons y ys => simp [isDigitStr, List.all_eq_true.mpr hd]

/-- `isdigit` success means a nonempty all-digit list. -/
theorem isDigitStr_sound (l : List Char) (h : isDigitStr l = true) : digitsClass l := by
  unfold isDigitStr at h
  simp only [Bool.and_eq_true, List.all_eq_true] at h
  refine ⟨?_, h.2⟩
  intro hl
  rw [hl] at h
  simp at h

/-- C8: duration parsing maps `H:MM:SS` input to `H*3600 + M*60 + S` seconds,
a bare digit string `N` to `N*60` seconds, and a composite `NhNmNs` token —
each of the three groups optional, at least one present, so partial tokens
such as `2h5m` are included — to the sum of the present groups' second
counts; an empty duration field yields the default 7500 s (2 h 5 min); and a
value is produced only for inputs of one of these shapes (after
strip/lowercase) — anything else signals the format error. -/
theorem duration_parsing_spec :
    (∀ l1 l2 l3 : List Char,
      l1 ≠ [] → (∀ c ∈ l1, c.isDigit = true) →
      l2.length = 2 → (∀ c ∈ l2, c.isDigit = true) →
      l3.length = 2 → (∀ c ∈ l3, c.isDigit = true) →
      duration_of_input (String.mk (l1 ++ (':' :: (l2 ++ (':' :: l3))))) =
        .ok ((natOfDigits l1 : Int) * 3600 + (natOfDigits l2 : Int) * 60 + natOfDigits l3)) ∧
    (∀ l : List Char, l ≠ [] → (∀ c ∈ l, c.isDigit = true) →
      duration_of_input (String.mk l) = .ok ((natOfDigits l : Int) * 60)) ∧
    (∀ (bh bm bs : Bool) (dh dm ds : List Char),
      (bh = true ∨ bm = true ∨ bs = true) →
      (bh = true → dh ≠ [] ∧ ∀ c ∈ dh, c.isDigit = true) →
      (bm = true → dm ≠ [] ∧ ∀ c ∈ dm, c.isDigit = true) →
      (bs = true → ds ≠ [] ∧ ∀ c ∈ ds, c.isDigit = true) →
      duration_of_input
          (String.mk (optPart bh dh 'h' ++ optPart bm dm 'm' ++ optPart bs ds 's')) =
        .ok (((if bh then natOfDigits dh else 0) * 3600 +
              (if bm then natOfDigits dm else 0) * 60 +
              (if bs then natOfDigits ds else 0) : Nat) : Int)) ∧
    duration_of_input "" = .ok 7500 ∧
    (∀ (s : String) (d : Int), duration_of_input s = .ok d →
      stripLower s = [] ∨ colonClass (stripLower s) ∨ compositeClass (stripLower s) ∨
        digitsClass (stripLower s)) := by
  refine ⟨?_, ?_, ?_, by decide, ?_⟩
  · intro l1 l2 l3 h1 hd1 hl2 hd2 hl3 hd3
    obtain ⟨a, b, rfl⟩ := List.length_eq_two.mp hl2
    obtain ⟨c, d, rfl⟩ := List.length_eq_two.mp hl3
    have hsp : ∀ x ∈ l1 ++ (':' :: ([a, b] ++ (':' :: [c, d]))), isSpaceChar x = false :=
      forall_mem_append (fun x hx => digit_not_space x (hd1 x hx))
        (forall_mem_cons' (by decide)
          (forall_mem_append (fun x hx => digit_not_space x (hd2 x hx))
            (forall_mem_cons' (by decide) (fun x hx => digit_not_space x (hd3 x hx)))))
    have hlow : ∀ x ∈ l1 ++ (':' :: ([a, b] ++ (':' :: [c, d]))), Char.toLower x = x :=
      forall_mem_append (fun x hx => digit_toLower x (hd1 x hx))
        (forall_mem_cons' (by decide)
          (forall_mem_append (fun x hx => digit_toLower x (hd2 x hx))
            (forall_mem_cons' (by decide) (fun x hx => digit_toLower x (hd3 x hx)))))
    simp only [duration_of_input]
    rw [if_neg (by
      rw [show (String.mk (l1 ++ (':' :: ([a, b] ++ (':' :: [c, d]))))).toList =
            l1 ++ (':' :: ([a, b] ++ (':' :: [c, d]))) from rfl,
          stripChars_eq_self _ hsp]
      simp)]
    simp only [parse_duration]
    rw [stripLower_eq_self _ hsp hlow,
        show l1 ++ (':' :: ([a, b] ++ (':' :: [c, d]))) =
          l1 ++ ':' :: a :: b :: ':' :: c :: d :: [] from by simp,
        matchColon_build l1 a b c d h1 hd1 (hd2 a (by simp)) (hd2 b (by simp))
          (hd3 c (by simp)) (hd3 d (by simp))]
    congr 1
  · intro l hne hd
    have hsp : ∀ x ∈ l, isSpaceChar x = false := fun x hx => digit_not_space x (hd x hx)
    have hlow : ∀ x ∈ l, Char.toLower x = x := fun x hx => digit_toLower x (hd x hx)
    simp only [duration_of_input]
    rw [if_neg (by rw [show (String.mk l).toList = l from rfl, stripChars_eq_self _ hsp]
                   exact hne)]
    simp only [parse_duration]
    rw [stripLower_eq_self _ hsp hlow, matchColon_none_digits l hd,
        matchComposite_none_digits l hne hd]
    simp [isDigitStr_eq_true l hne hd]
  · intro bh bm bs dh dm ds hor hh hm hs
    have hchars : ∀ x ∈ optPart bh dh 'h' ++ optPart bm dm 'm' ++ optPart bs ds 's',
        isSpaceChar x = false ∧ Char.toLower x = x :=
      forall_mem_append (forall_mem_append
        (optPart_chars bh dh 'h' (fun hb => (hh hb).2) (by constructor <;> decide))
        (optPart_chars bm dm 'm' (fun hb => (hm hb).2) (by constructor <;> decide)))
        (optPart_chars bs ds 's' (fun hb => (hs hb).2) (by constructor <;> decide))
    have hsp : ∀ x ∈ optPart bh dh 'h' ++ optPart bm dm 'm' ++ optPart bs ds 's',
        isSpaceChar x = false := fun x hx => (hchars x hx).1
    have hlow : ∀ x ∈ optPart bh dh 'h' ++ optPart bm dm 'm' ++ optPart bs ds 's',
        Char.toLower x = x := fun x hx => (hchars x hx).2
    have hcol : matchColon (optPart bh dh 'h' ++ optPart bm dm 'm' ++ optPart bs ds 's') =
        none ∧ optPart bh dh 'h' ++ optPart bm dm 'm' ++ optPart bs ds 's' ≠ [] := by
      cases bh
      · cases bm
        · cases bs
          · simp at hor
          · obtain ⟨h3, hd3⟩ := hs rfl
            exact ⟨by simpa [optPart] using matchColon_none_s ds [] hd3, by simp [optPart]⟩
        · obtain ⟨h2, hd2⟩ := hm rfl
          refine ⟨?_, by simp [optPart]⟩
          cases bs
          · simpa [optPart] using matchColon_none_m dm [] hd2
          · simpa [optPart] using matchColon_none_m dm (ds ++ ['s']) hd2
      · obtain ⟨h1, hd1⟩ := hh rfl
        refine ⟨?_, by simp [optPart]⟩
        cases bm <;> cases bs
        · simpa [optPart] using matchColon_none_h dh [] hd1
        · simpa [optPart] using matchColon_none_h dh (ds ++ ['s']) hd1
        · simpa [optPart] using matchColon_none_h dh (dm ++ ['m']) hd1
        · simpa [optPart] using matchColon_none_h dh (dm ++ 'm' :: (ds ++ ['s'])) hd1
    simp only [duration_of_input]
    rw [if_neg (by
      rw [show (String.mk (optPart bh dh 'h' ++ optPart bm dm 'm' ++
            optPart bs ds 's')).toList =
            optPart bh dh 'h' ++ optPart bm dm 'm' ++ optPart bs ds 's' from rfl,
          stripChars_eq_self _ hsp]
      exact hcol.2)]
    simp only [parse_duration]
    rw [stripLower_eq_self _ hsp hlow, hcol.1,
        matchComposite_build_gen bh bm bs dh dm ds hor hh hm hs]
  · intro s d h
    unfold duration_of_input at h
    split at h
    next hemp =>
      left
      unfold stripLower
      rw [hemp]
      rfl
    next =>
      simp only [parse_duration] at h
      rcases hc : matchColon (stripLower s) with _ | v <;> simp only [hc] at h
      · rcases hcc : matchComposite (stripLower s) with _ | w <;> simp only [hcc] at h
        · split at h
          next hdig => exact Or.inr (Or.inr (Or.inr (isDigitStr_sound _ hdig)))
          next => cases h
        · exact Or.inr (Or.inr (Or.inl (matchComposite_sound _ w hcc)))
      · exact Or.inr (Or.inl (matchColon_sound _ v hc))

/-- Witness for C8: `2:05:00`, `125`, and the partial composite token `2h5m`
(which the source's own error message names as an accepted form). -/
theorem duration_parsing_spec_witness :
    duration_of_input (String.mk (['2'] ++ (':' :: (['0', '5'] ++ (':' :: ['0', '0']))))) =
      .ok ((natOfDigits ['2'] : Int) * 3600 + (natOfDigits ['0', '5'] : Int) * 60 +
        natOfDigits ['0', '0']) ∧
    duration_of_input (String.mk ['1', '2', '5']) =
      .ok ((natOfDigits ['1', '2', '5'] : Int) * 60) ∧
    duration_of_input (String.mk ['2', 'h', '5', 'm']) = .ok 7500 :=
  ⟨duration_parsing_spec.1 ['2'] ['0', '5'] ['0', '0'] (by decide) (by decide) (by decide)
     (by decide) (by decide) (by decide),
   duration_parsing_spec.2.1 ['1', '2', '5'] (by decide) (by decide),
   duration_parsing_spec.2.2.1 true true false ['2'] ['5'] [] (Or.inl rfl)
     (fun _ => ⟨by decide, by decide⟩) (fun _ => ⟨by decide, by decide⟩) (by simp)⟩

/-! ### Series group key (C5) -/

/-- `tryTimeLen` succeeds on a reversed well-formed suffix of its own
length. -/
theorem tryTimeLen_build (dk d8 g : List Char) (k : Nat)
    (hk : dk.length = k) (hdk : ∀ c ∈ dk, c.isDigit = true)
    (h8 : d8.length = 8) (hd8 : ∀ c ∈ d8, c.isDigit = true) :
    tryTimeLen (dk.reverse ++ '_' :: (d8.reverse ++ '_' :: g)) k = some g := by
  have hkr : dk.reverse.length = k := by simp [hk]
  have h8r : d8.reverse.length = 8 := by simp [h8]
  have ha1 : dk.reverse.all (fun c => c.isDigit) = true := by
    rw [List.all_eq_true]
    intro c hc
    exact hdk c (List.mem_reverse.mp hc)
  have ha2 : d8.reverse.all (fun c => c.isDigit) = true := by
    rw [List.all_eq_true]
    intro c hc
    exact hd8 c (List.mem_reverse.mp hc)
  simp [tryTimeLen, List.take_left' hkr, List.drop_left' hkr,
        List.take_left' h8r, List.drop_left' h8r, hkr, h8r, ha1, ha2]

/-- `tryTimeLen` fails for any length strictly shorter than the trailing
digit run: the character after the tried block is still a digit, not an
underscore. -/
theorem tryTimeLen_short (dk rest : List Char) (k k' : Nat)
    (hk : dk.length = k) (hdk : ∀ c ∈ dk, c.isDigit = true) (hlt : k' < k) :
    tryTimeLen (dk.reverse ++ '_' :: rest) k' = none := by
  have hlen : dk.reverse.length = k := by simp [hk]
  have hle : k' ≤ dk.reverse.length := by omega
  have hne : dk.reverse.drop k' ≠ [] := by
    intro hx
    have hlx := congrArg List.length hx
    simp only [List.length_drop, hlen, List.length_nil] at hlx
    omega
  unfold tryTimeLen
  rw [List.take_append_of_le_length hle, List.drop_append_of_le_length hle]
  rw [if_pos ⟨by rw [List.length_take, hlen]; exact min_eq_left (by omega), by
        rw [List.all_eq_true]
        intro c hc
        exact hdk c (List.mem_reverse.mp (List.mem_of_mem_take hc))⟩]
  obtain ⟨y, ys, hys⟩ := List.exists_cons_of_ne_nil hne
  have hy : y.isDigit = true := by
    have hmem : y ∈ dk.reverse.drop k' := by rw [hys]; simp
    exact hdk y (List.mem_reverse.mp (List.mem_of_mem_drop hmem))
  rw [hys, List.cons_append]
  split
  next r2 heq =>
    exfalso
    have hy' : y = '_' := by
      have := congrArg List.head? heq
      simpa using this
    subst hy'
    exact absurd hy (by decide)
  next => rfl

/-- Soundness of `tryTimeLen`: success decomposes the reversed name. -/
theorem tryTimeLen_sound (r : List Char) (k : Nat) (g : List Char)
    (h : tryTimeLen r k = some g) :
    ∃ dkr d8r, dkr.length = k ∧ (∀ c ∈ dkr, c.isDigit = true) ∧
      d8r.length = 8 ∧ (∀ c ∈ d8r, c.isDigit = true) ∧
      r = dkr ++ '_' :: (d8r ++ '_' :: g) := by
  unfold tryTimeLen at h
  split at h
  next hcond =>
    split at h
    next r2 heq2 =>
      split at h
      next hcond8 =>
        split at h
        next r4 heq4 =>
          cases h
          obtain ⟨hlk, hak⟩ := hcond
          obtain ⟨hl8, ha8⟩ := hcond8
          refine ⟨r.take k, r2.take 8, hlk, ?_, hl8, ?_, ?_⟩
          · intro c hc
            exact (List.all_eq_true.mp hak) c hc
          · intro c hc
            exact (List.all_eq_true.mp ha8) c hc
          · conv_lhs => rw [← List.take_append_drop k r]
            rw [heq2]
            congr 1
            congr 1
            conv_lhs => rw [← List.take_append_drop 8 r2]
            rw [heq4]
        next => cases h
      next => cases h
    next => cases h
  next => cases h

/-- A list whose `getLast?` is `some c` is its `dropLast` plus `[c]`. -/
theorem eq_dropLast_concat_of_getLast? {l : List Char} {c : Char}
    (h : l.getLast? = some c) : l = l.dropLast ++ [c] := by
  have hne : l ≠ [] := by
    intro hl
    rw [hl] at h
    cases h
  rw [List.getLast?_eq_getLast l hne, Option.some.injEq] at h
  rw [← h]
  exact (List.dropLast_append_getLast hne).symm

/-- The core matcher accepts every well-formed series name and returns the
capture group. -/
theorem series_group_key_core_build (mid d8 dk : List Char)
    (hmid : mid ≠ []) (hmid_nl : ∀ c ∈ mid, c ≠ '\n')
    (h8 : d8.length = 8) (hd8 : ∀ c ∈ d8, c.isDigit = true)
    (hk4 : 4 ≤ dk.length) (hk6 : dk.length ≤ 6) (hdk : ∀ c ∈ dk, c.isDigit = true) :
    series_group_key_core ((seriesTag ++ mid) ++ ('_' :: d8) ++ ('_' :: dk)) =
      some (String.mk (seriesTag ++ mid)) := by
  have hrev : ((seriesTag ++ mid) ++ ('_' :: d8) ++ ('_' :: dk)).reverse =
      dk.reverse ++ '_' :: (d8.reverse ++ '_' :: (seriesTag ++ mid).reverse) := by
    simp [List.reverse_append, List.append_assoc]
  have hpre : seriesTag.isPrefixOf (seriesTag ++ mid) = true :=
    List.isPrefixOf_iff_prefix.mpr (List.prefix_append _ _)
  have hlen : seriesTag.length < (seriesTag ++ mid).length := by
    have := List.length_pos.mpr hmid
    rw [List.length_append]
    omega
  have hall : ((seriesTag ++ mid).drop seriesTag.length).all
      (fun c => decide (c ≠ '\n')) = true := by
    rw [List.drop_left, List.all_eq_true]
    intro c hc
    simpa using hmid_nl c hc
  simp only [series_group_key_core]
  rw [hrev]
  rcases (by omega : dk.length = 4 ∨ dk.length = 5 ∨ dk.length = 6) with hk | hk | hk
  · rw [tryTimeLen_build dk d8 _ 4 hk hdk h8 hd8]
    simp only [Option.orElse, List.reverse_reverse]
    rw [if_pos ⟨hpre, hlen, hall⟩]
  · rw [tryTimeLen_short dk _ 5 4 hk hdk (by omega),
        tryTimeLen_build dk d8 _ 5 hk hdk h8 hd8]
    simp only [Option.orElse, List.reverse_reverse]
    rw [if_pos ⟨hpre, hlen, hall⟩]
  · rw [tryTimeLen_short dk _ 6 4 hk hdk (by omega),
        tryTimeLen_short dk _ 6 5 hk hdk (by omega),
        tryTimeLen_build dk d8 _ 6 hk hdk h8 hd8]
    simp only [Option.orElse, List.reverse_reverse]
    rw [if_pos ⟨hpre, hlen, hall⟩]

/-- Assemble a decomposition of a successful core match from one
`tryTimeLen` success plus the capture-group conditions. -/
theorem core_sound_aux (l : List Char) (g : List Char) (k : Nat)
    (hk4 : 4 ≤ k) (hk6 : k ≤ 6) (htry : tryTimeLen l.reverse k = some g)
    (hpre : seriesTag.isPrefixOf g.reverse = true)
    (hlen : seriesTag.length < g.reverse.length)
    (hall : (g.reverse.drop seriesTag.length).all (fun c => decide (c ≠ '\n')) = true) :
    ∃ mid d8 dk : List Char,
      mid ≠ [] ∧ (∀ c ∈ mid, c ≠ '\n') ∧
      d8.length = 8 ∧ (∀ c ∈ d8, c.isDigit = true) ∧
      4 ≤ dk.length ∧ dk.length ≤ 6 ∧ (∀ c ∈ dk, c.isDigit = true) ∧
      l = (seriesTag ++ mid) ++ ('_' :: d8) ++ ('_' :: dk) ∧
      String.mk g.reverse = String.mk (seriesTag ++ mid) := by
  obtain ⟨dkr, d8r, hdklen, hdkdig, h8len, h8dig, hr⟩ := tryTimeLen_sound l.reverse k g htry
  obtain ⟨mid, hmid⟩ := List.isPrefixOf_iff_prefix.mp hpre
  have hmidne : mid ≠ [] := by
    intro hx
    rw [hx, List.append_nil] at hmid
    rw [← hmid] at hlen
    exact lt_irrefl _ hlen
  have hmid_nl : ∀ c ∈ mid, c ≠ '\n' := by
    intro c hc
    have hdropped : g.reverse.drop seriesTag.length = mid := by
      rw [← hmid, List.drop_left]
    have := (List.all_eq_true.mp hall) c (by rw [hdropped]; exact hc)
    simpa using this
  refine ⟨mid, d8r.reverse, dkr.reverse, hmidne, hmid_nl, by simp [h8len],
    (fun c hc => h8dig c (List.mem_reverse.mp hc)), by simp [hdklen]; omega,
    by simp [hdklen]; omega, (fun c hc => hdkdig c (List.mem_reverse.mp hc)), ?_, ?_⟩
  · have hlr := congrArg List.reverse hr
    rw [List.reverse_reverse] at hlr
    rw [hlr, hmid]
    simp [List.reverse_append, List.append_assoc]
  · rw [hmid]

/-- Soundness of the core matcher. -/
theorem series_group_key_core_sound (l : List Char) (key : String)
    (h : series_group_key_core l = some key) :
    ∃ mid d8 dk : List Char,
      mid ≠ [] ∧ (∀ c ∈ mid, c ≠ '\n') ∧
      d8.length = 8 ∧ (∀ c ∈ d8, c.isDigit = true) ∧
      4 ≤ dk.length ∧ dk.length ≤ 6 ∧ (∀ c ∈ dk, c.isDigit = true) ∧
      l = (seriesTag ++ mid) ++ ('_' :: d8) ++ ('_' :: dk) ∧
      key = String.mk (seriesTag ++ mid) := by
  simp only [series_group_key_core] at h
  rcases h4 : tryTimeLen l.reverse 4 with _ | g
  · rw [h4] at h
    simp only [Option.orElse] at h
    rcases h5 : tryTimeLen l.reverse 5 with _ | g
    · rw [h5] at h
      simp only [Option.orElse] at h
      rcases h6 : tryTimeLen l.reverse 6 with _ | g
      · rw [h6] at h
        simp at h
      · rw [h6] at h
        simp only [Option.orElse] at h
        split at h
        next hcond =>
          obtain ⟨h1, h2, h3⟩ := hcond
          obtain ⟨mid, d8, dk, a1, a2, a3, a4, a5, a6, a7, a8, a9⟩ :=
            core_sound_aux l g 6 (by norm_num) (by norm_num) h6 h1 h2 h3
          cases h
          exact ⟨mid, d8, dk, a1, a2, a3, a4, a5, a6, a7, a8, a9⟩
        next => cases h
    · rw [h5] at h
      simp only [Option.orElse] at h
      split at h
      next hcond =>
        obtain ⟨h1, h2, h3⟩ := hcond
        obtain ⟨mid, d8, dk, a1, a2, a3, a4, a5, a6, a7, a8, a9⟩ :=
          core_sound_aux l g 5 (by norm_num) (by norm_num) h5 h1 h2 h3
        cases h
        exact ⟨mid, d8, dk, a1, a2, a3, a4, a5, a6, a7, a8, a9⟩
      next => cases h
  · rw [h4] at h
    simp only [Option.orElse] at h
    split at h
    next hcond =>
      obtain ⟨h1, h2, h3⟩ := hcond
      obtain ⟨mid, d8, dk, a1, a2, a3, a4, a5, a6, a7, a8, a9⟩ :=
        core_sound_aux l g 4 (by norm_num) (by norm_num) h4 h1 h2 h3
      cases h
      exact ⟨mid, d8, dk, a1, a2, a3, a4, a5, a6, a7, a8, a9⟩
    next => cases h

/-- The full matcher accepts a well-formed series name, with or without one
trailing newline, and returns the tag-plus-stem capture group. -/
theorem series_group_key_build (mid d8 dk : List Char) (nl : Bool)
    (hmid : mid ≠ []) (hmid_nl : ∀ c ∈ mid, c ≠ '\n')
    (h8 : d8.length = 8) (hd8 : ∀ c ∈ d8, c.isDigit = true)
    (hk4 : 4 ≤ dk.length) (hk6 : dk.length ≤ 6) (hdk : ∀ c ∈ dk, c.isDigit = true) :
    series_group_key (String.mk ((seriesTag ++ mid) ++ ('_' :: d8) ++ ('_' :: dk) ++
      (if nl then ['\n'] else []))) = some (String.mk (seriesTag ++ mid)) := by
  have hdkne : dk ≠ [] := by
    intro hx
    rw [hx] at hk4
    simp at hk4
  have hgl : ((seriesTag ++ mid) ++ ('_' :: d8) ++ ('_' :: dk)).getLast? =
      some (dk.getLast hdkne) := by
    rw [List.getLast?_append_of_ne_nil _ (by simp : ('_' :: dk) ≠ []),
        show ('_' :: dk) = ['_'] ++ dk from rfl,
        List.getLast?_append_of_ne_nil _ hdkne]
    exact List.getLast?_eq_getLast dk hdkne
  have hglne : ¬ (((seriesTag ++ mid) ++ ('_' :: d8) ++ ('_' :: dk)).getLast? = some '\n') := by
    rw [hgl]
    intro hx
    rw [Option.some.injEq] at hx
    exact digit_ne _ '\n' (hdk _ (List.getLast_mem hdkne)) (by decide) hx
  simp only [series_group_key]
  cases nl
  · rw [show (String.mk ((seriesTag ++ mid) ++ ('_' :: d8) ++ ('_' :: dk) ++
        (if false then ['\n'] else []))).toList =
        (seriesTag ++ mid) ++ ('_' :: d8) ++ ('_' :: dk) from by simp]
    rw [if_neg hglne]
    exact series_group_key_core_build mid d8 dk hmid hmid_nl h8 hd8 hk4 hk6 hdk
  · rw [show (String.mk ((seriesTag ++ mid) ++ ('_' :: d8) ++ ('_' :: dk) ++
        (if true then ['\n'] else []))).toList =
        ((seriesTag ++ mid) ++ ('_' :: d8) ++ ('_' :: dk)) ++ ['\n'] from by simp]
    rw [if_pos (List.getLast?_concat _), List.dropLast_concat]
    exact series_group_key_core_build mid d8 dk hmid hmid_nl h8 hd8 hk4 hk6 hdk

/-- Soundness of the full matcher: a key is only returned for well-formed
series names (up to one trailing newline) and equals the tag plus stem. -/
theorem series_group_key_sound (name key : String)
    (h : series_group_key name = some key) :
    ∃ mid d8 dk : List Char, ∃ nl : Bool,
      mid ≠ [] ∧ (∀ c ∈ mid, c ≠ '\n') ∧
      d8.length = 8 ∧ (∀ c ∈ d8, c.isDigit = true) ∧
      4 ≤ dk.length ∧ dk.length ≤ 6 ∧ (∀ c ∈ dk, c.isDigit = true) ∧
      name.toList = (seriesTag ++ mid) ++ ('_' :: d8) ++ ('_' :: dk) ++
        (if nl then ['\n'] else []) ∧
      key = String.mk (seriesTag ++ mid) := by
  simp only [series_group_key] at h
  by_cases hnl : name.toList.getLast? = some '\n'
  · rw [if_pos hnl] at h
    obtain ⟨mid, d8, dk, a1, a2, a3, a4, a5, a6, a7, hl, hk⟩ :=
      series_group_key_core_sound _ key h
    refine ⟨mid, d8, dk, true, a1, a2, a3, a4, a5, a6, a7, ?_, hk⟩
    have hsplit := eq_dropLast_concat_of_getLast? hnl
    rw [hsplit, hl]
    simp
  · rw [if_neg hnl] at h
    obtain ⟨mid, d8, dk, a1, a2, a3, a4, a5, a6, a7, hl, hk⟩ :=
      series_group_key_core_sound _ key h
    refine ⟨mid, d8, dk, false, a1, a2, a3, a4, a5, a6, a7, ?_, hk⟩
    rw [hl]
    simp

/-- C5: `group_key` returns a non-`None` key exactly for names made of the
series tag, a nonempty newline-free stem, an underscore, an 8-digit date, an
underscore and a 4-to-6-digit time (Python's `$` also tolerates one final
newline); the key is the tag plus stem, so two series names differing only in
the date/time suffix share a key, and a name without the series tag yields
`None`. -/
theorem series_group_key_spec :
    (∀ name : String, (series_group_key name).isSome = true ↔
      ∃ mid d8 dk : List Char, ∃ nl : Bool,
        mid ≠ [] ∧ (∀ c ∈ mid, c ≠ '\n') ∧
        d8.length = 8 ∧ (∀ c ∈ d8, c.isDigit = true) ∧
        4 ≤ dk.length ∧ dk.length ≤ 6 ∧ (∀ c ∈ dk, c.isDigit = true) ∧
        name.toList = (seriesTag ++ mid) ++ ('_' :: d8) ++ ('_' :: dk) ++
          (if nl then ['\n'] else [])) ∧
    (∀ (mid d8 dk : List Char) (nl : Bool),
      mid ≠ [] → (∀ c ∈ mid, c ≠ '\n') →
      d8.length = 8 → (∀ c ∈ d8, c.isDigit = true) →
      4 ≤ dk.length → dk.length ≤ 6 → (∀ c ∈ dk, c.isDigit = true) →
      series_group_key (String.mk ((seriesTag ++ mid) ++ ('_' :: d8) ++ ('_' :: dk) ++
        (if nl then ['\n'] else []))) = some (String.mk (seriesTag ++ mid))) ∧
    series_group_key "IPTV_DVR_SERIES_MyShow_20240101_2000" =
      series_group_key "IPTV_DVR_SERIES_MyShow_20240108_2000" ∧
    (series_group_key "IPTV_DVR_SERIES_MyShow_20240101_2000").isSome = true ∧
    series_group_key "IPTV_DVR_MyShow.mp4" = none := by
  refine ⟨?_, series_group_key_build, by decide, by decide, by decide⟩
  intro name
  constructor
  · intro hs
    obtain ⟨key, hkey⟩ := Option.isSome_iff_exists.mp hs
    obtain ⟨mid, d8, dk, nl, a1, a2, a3, a4, a5, a6, a7, hl, _⟩ :=
      series_group_key_sound name key hkey
    exact ⟨mid, d8, dk, nl, a1, a2, a3, a4, a5, a6, a7, hl⟩
  · rintro ⟨mid, d8, dk, nl, a1, a2, a3, a4, a5, a6, a7, hl⟩
    have h2 : series_group_key (String.mk name.toList) =
        some (String.mk (seriesTag ++ mid)) := by
      rw [hl]
      exact series_group_key_build mid d8 dk nl a1 a2 a3 a4 a5 a6 a7
    rw [show String.mk name.toList = name from rfl] at h2
    rw [h2]
    rfl

/-- Witness for C5: the stem `My` with date `20240101` and time `2000`. -/
theorem series_group_key_spec_witness :
    series_group_key (String.mk ((seriesTag ++ ['M', 'y']) ++
        ('_' :: ['2', '0', '2', '4', '0', '1', '0', '1']) ++ ('_' :: ['2', '0', '0', '0']) ++
        (if false then ['\n'] else []))) = some (String.mk (seriesTag ++ ['M', 'y'])) :=
  series_group_key_spec.2.1 ['M', 'y'] ['2', '0', '2', '4', '0', '1', '0', '1']
    ['2', '0', '0', '0'] false (by decide) (by decide) (by decide) (by decide)
    (by decide) (by decide) (by decide)

end VLCIPTV
